import Mathlib

/-!
Verification of the simple hex radix trie.

The Rust source (`src/main.rs`) defines a 16-ary trie:

  struct Node { children: Vec<Option<Box<Node>>>, value: Option<String> }

with operations `insert`, `get`, `delete` (keyed by hex strings decomposed
into nibbles), `insert_nibbles` (keyed by a raw nibble sequence), a key
codec `hex_to_nibbles`, and a `Display` renderer.

The embedding below mirrors the source.  Rust slice indexing
`children[i]` panics when `i` is out of bounds; every operation that
performs such an indexing is therefore embedded as an `Option`-returning
function, where `none` models the panic.  All other behaviour is a direct
transcription.
-/

namespace RadixTrie

/-- `struct Node { children: Vec<Option<Box<Node>>>, value: Option<String> }`. -/
inductive Node where
  | mk (children : List (Option Node)) (value : Option String)

/-- Field accessor for `children`. -/
def Node.children : Node → List (Option Node)
  | .mk ch _ => ch

/-- Field accessor for `value`. -/
def Node.value : Node → Option String
  | .mk _ v => v

/-- `Node::new()`: sixteen empty child slots, no value. -/
def Node.new : Node := .mk (List.replicate 16 none) none

/-- Model of `char::to_digit(16)` (used by `hex_to_nibbles`): decimal
digits `0`-`9` map to 0-9, letters `a`-`f` / `A`-`F` map to 10-15,
everything else is rejected.  Character codes: `0` = 48, `9` = 57,
`a` = 97, `f` = 102, `A` = 65, `F` = 70. -/
def toDigit16 (c : Char) : Option Nat :=
  let n := c.toNat
  if 48 ≤ n ∧ n ≤ 57 then some (n - 48)
  else if 97 ≤ n ∧ n ≤ 102 then some (n - 97 + 10)
  else if 65 ≤ n ∧ n ≤ 70 then some (n - 65 + 10)
  else none

/-- `hex_to_nibbles`: `s.chars().filter_map(|c| c.to_digit(16))`. -/
def hexToNibbles (s : String) : List Nat :=
  s.data.filterMap toDigit16

/-- The loop body of `Node::insert`, recursing over the nibble list.
`none` models the panic of `cur.children[nibble]` on an out-of-range
index. -/
def insertGo : Node → List Nat → String → Option Node
  | .mk ch _, [], value => some (.mk ch (some value))
  | .mk ch v, nib :: rest, value =>
    match ch.get? nib with
    | none => none
    | some slot =>
      match insertGo (slot.getD Node.new) rest value with
      | none => none
      | some child => some (.mk (ch.set nib (some child)) v)

/-- `Node::insert(&mut self, hex_key: &str, value: String)`. -/
def Node.insert (t : Node) (hexKey : String) (value : String) : Option Node :=
  insertGo t (hexToNibbles hexKey) value

/-- The loop of `Node::get`.  Outer `none` models the indexing panic;
`some none` is Rust's `None` result (key absent), `some (some v)` is
`Some(v)`. -/
def getGo : Node → List Nat → Option (Option String)
  | .mk _ v, [] => some v
  | .mk ch _, nib :: rest =>
    match ch.get? nib with
    | none => none
    | some none => some none
    | some (some child) => getGo child rest

/-- `Node::get(&self, hex_key: &str) -> Option<&String>`. -/
def Node.get (t : Node) (hexKey : String) : Option (Option String) :=
  getGo t (hexToNibbles hexKey)

/-- The deadness test `node.value.is_none() && node.children.iter().all(|c| c.is_none())`
computed at the end of `delete_rec`. -/
def isDead (t : Node) : Bool :=
  t.value.isNone && t.children.all Option.isNone

/-- `delete_rec(node, nibbles)`: clears the value at the end of the
nibble path, prunes dead children bottom-up, and returns whether the
node itself is now dead.  `none` models the indexing panic. -/
def deleteRec : Node → List Nat → Option (Node × Bool)
  | .mk ch _, [] =>
    let node := Node.mk ch none
    some (node, node.value.isNone && node.children.all Option.isNone)
  | .mk ch v, idx :: rest =>
    match ch.get? idx with
    | none => none
    | some none =>
      let node := Node.mk ch v
      some (node, node.value.isNone && node.children.all Option.isNone)
    | some (some child) =>
      match deleteRec child rest with
      | none => none
      | some (child', shouldPrune) =>
        let node := Node.mk
          (if shouldPrune then ch.set idx none else ch.set idx (some child')) v
        some (node, node.value.isNone && node.children.all Option.isNone)

/-- `Node::delete(&mut self, hex_key: &str) -> bool`: runs `delete_rec`
on the nibble decomposition of the key; the returned pair is the updated
node together with the boolean the Rust function returns. -/
def Node.delete (t : Node) (hexKey : String) : Option (Node × Bool) :=
  deleteRec t (hexToNibbles hexKey)

/-- The loop body of `Node::insert_nibbles` — textually the same loop as
`Node::insert`, duplicated in the source, so embedded as its own
recursion. -/
def insertNibblesGo : Node → List Nat → String → Option Node
  | .mk ch _, [], value => some (.mk ch (some value))
  | .mk ch v, nib :: rest, value =>
    match ch.get? nib with
    | none => none
    | some slot =>
      match insertNibblesGo (slot.getD Node.new) rest value with
      | none => none
      | some child => some (.mk (ch.set nib (some child)) v)

/-- `Node::insert_nibbles(&mut self, nibbles, value)`. -/
def Node.insertNibbles (t : Node) (nibs : List Nat) (value : String) : Option Node :=
  insertNibblesGo t nibs value

/-- `const NIBBLE_TO_HEX: &[u8; 16] = b"0123456789abcdef"`, as characters. -/
def NIBBLE_TO_HEX : List Char := "0123456789abcdef".data

/-- One insertion step of the stable sort modelling `present.sort_by_key(|(i, _)| *i)`. -/
def insertSortedByKey (p : Nat × Node) : List (Nat × Node) → List (Nat × Node)
  | [] => [p]
  | q :: rest => if p.1 ≤ q.1 then p :: q :: rest else q :: insertSortedByKey p rest

/-- `present.sort_by_key(|(i, _)| *i)`: sort the (index, child) pairs by
ascending nibble index.  (`enumerate` already yields ascending indices,
so on the renderer's actual inputs this sort is the identity.) -/
def sortByKey : List (Nat × Node) → List (Nat × Node)
  | [] => []
  | p :: rest => insertSortedByKey p (sortByKey rest)

/-- `node.children.iter().enumerate().filter_map(|(i, ch)| ch.as_deref().map(|c| (i, c)))`. -/
def presentChildren (ch : List (Option Node)) : List (Nat × Node) :=
  ch.enum.filterMap (fun p => p.2.map (fun c => (p.1, c)))

theorem sum_measure_insertSortedByKey (p : Nat × Node) (l : List (Nat × Node)) :
    ((insertSortedByKey p l).map (fun q => 1 + sizeOf q.2)).sum
      = 1 + sizeOf p.2 + (l.map (fun q => 1 + sizeOf q.2)).sum := by
  induction l with
  | nil => simp [insertSortedByKey]
  | cons q rest ih =>
    by_cases h : p.1 ≤ q.1
    · simp only [insertSortedByKey, if_pos h, List.map_cons, List.sum_cons]
    · simp only [insertSortedByKey, if_neg h, List.map_cons, List.sum_cons, ih]
      omega

theorem sum_measure_sortByKey (l : List (Nat × Node)) :
    ((sortByKey l).map (fun q => 1 + sizeOf q.2)).sum
      = (l.map (fun q => 1 + sizeOf q.2)).sum := by
  induction l with
  | nil => rfl
  | cons p rest ih =>
    simp only [sortByKey, sum_measure_insertSortedByKey, List.map_cons, List.sum_cons, ih]

theorem sum_measure_enumFrom_le (ch : List (Option Node)) :
    ∀ k, (((List.enumFrom k ch).filterMap
        (fun p => p.2.map (fun c => (p.1, c)))).map (fun q => 1 + sizeOf q.2)).sum
      ≤ sizeOf ch := by
  induction ch with
  | nil => intro k; simp
  | cons slot rest ih =>
    intro k
    cases slot with
    | none =>
      simp only [List.enumFrom, List.filterMap_cons, Option.map_none']
      have := ih (k + 1)
      simp only [List.cons.sizeOf_spec]
      omega
    | some c =>
      simp only [List.enumFrom, List.filterMap_cons, Option.map_some']
      have := ih (k + 1)
      simp only [List.cons.sizeOf_spec, Option.some.sizeOf_spec,
        List.map_cons, List.sum_cons] at this ⊢
      omega

theorem present_measure_lt (ch : List (Option Node)) (v : Option String) :
    ((sortByKey (presentChildren ch)).map (fun q => 1 + sizeOf q.2)).sum
      < sizeOf (Node.mk ch v) := by
  have h := sum_measure_enumFrom_le ch 0
  rw [sum_measure_sortByKey]
  simp only [presentChildren, List.enum]
  simp only [Node.mk.sizeOf_spec]
  have hv : 0 < sizeOf v := by cases v <;> simp
  omega

mutual

/-- `print_rec` of the `impl fmt::Display for Node`: emits this node's
line, then recurses over the present children in ascending nibble order.
`none` models the two possible panics (`NIBBLE_TO_HEX[n]` with `n ≥ 16`,
and `.last().unwrap()` on an empty path). -/
def renderNode : Node → List Nat → String → Bool → Bool → Option String
  | .mk ch v, prefixPath, ind, isLast, isRoot =>
    let bullet : String := if isRoot then "" else if isLast then "└── " else "├── "
    let valueStr : String :=
      match v with
      | some s => " = " ++ s
      | none => ""
    let lineOpt : Option String :=
      if isRoot then some ("(root)" ++ valueStr ++ "\n")
      else
        match (prefixPath.mapM (fun n => NIBBLE_TO_HEX.get? n)).bind List.getLast? with
        | none => none
        | some lastHex => some (ind ++ bullet ++ String.mk [lastHex] ++ valueStr ++ "\n")
    match lineOpt with
    | none => none
    | some line =>
      match renderChildren (sortByKey (presentChildren ch)) 0
          (sortByKey (presentChildren ch)).length prefixPath ind isRoot isLast with
      | none => none
      | some rest => some (line ++ rest)
  termination_by node _ _ _ _ => sizeOf node
  decreasing_by apply present_measure_lt

/-- The `for (i, (nib, child)) in present.iter().enumerate()` loop of
`print_rec`, carrying the running index `i` and `total = present.len()`. -/
def renderChildren : List (Nat × Node) → Nat → Nat → List Nat → String → Bool → Bool →
    Option String
  | [], _, _, _, _, _, _ => some ""
  | (nib, child) :: rest, i, total, prefixPath, ind, isRoot, isLast =>
    let childIsLast : Bool := i + 1 == total
    let nextInd : String := ind ++ (if isRoot then "" else if isLast then "    " else "│   ")
    match renderNode child (prefixPath ++ [nib]) nextInd childIsLast false with
    | none => none
    | some s =>
      match renderChildren rest (i + 1) total prefixPath ind isRoot isLast with
      | none => none
      | some s' => some (s ++ s')
  termination_by siblings _ _ _ _ _ _ => (siblings.map (fun q => 1 + sizeOf q.2)).sum
  decreasing_by
    all_goals simp
    all_goals omega

end

/-- The `Display` entry point: `print_rec(f, self, &mut Vec::new(), "", true, true)`. -/
def Node.render (t : Node) : Option String :=
  renderNode t [] "" true true

/-- Structural well-formedness: every reachable node has exactly sixteen
child slots.  Every node the Rust program ever builds is created by
`Node::new()` and mutated only slot-wise, so it satisfies this. -/
inductive wf : Node → Prop where
  | mk (ch : List (Option Node)) (v : Option String)
      (hlen : ch.length = 16)
      (hch : ∀ n, some n ∈ ch → wf n) : wf (.mk ch v)

/-- No reachable proper descendant is dead (has neither a value nor a
non-empty child slot).  The root itself is exempt. -/
inductive noDeadBelow : Node → Prop where
  | mk (ch : List (Option Node)) (v : Option String)
      (hdead : ∀ n, some n ∈ ch → isDead n = false)
      (hch : ∀ n, some n ∈ ch → noDeadBelow n) :
      noDeadBelow (.mk ch v)

/-- The public operations, for stating whole-history invariants. -/
inductive Op where
  | ins (key value : String)
  | insN (nibs : List Nat) (value : String)
  | getOp (key : String)
  | del (key : String)

/-- Effect of one public operation on the trie (`get` reads only). -/
def applyOp (t : Node) : Op → Option Node
  | .ins k v => t.insert k v
  | .insN nibs v => t.insertNibbles nibs v
  | .getOp _ => some t
  | .del k => (t.delete k).map Prod.fst

/-- Effect of a sequence of public operations. -/
def applyOps (t : Node) : List Op → Option Node
  | [] => some t
  | op :: rest =>
    match applyOp t op with
    | none => none
    | some t' => applyOps t' rest

/-! ### Basic facts about the key codec and the structural invariants -/

theorem toDigit16_lt {c : Char} {n : Nat} (h : toDigit16 c = some n) : n < 16 := by
  simp only [toDigit16] at h
  split_ifs at h with h1 h2 h3 <;> simp_all <;> omega

theorem hexToNibbles_lt {s : String} {n : Nat} (h : n ∈ hexToNibbles s) : n < 16 := by
  simp only [hexToNibbles, List.mem_filterMap] at h
  obtain ⟨c, _, hc⟩ := h
  exact toDigit16_lt hc

theorem wf_new : wf Node.new := by
  refine wf.mk _ _ (by simp) ?_
  intro n hn
  simp [List.mem_replicate] at hn

theorem noDead_new : noDeadBelow Node.new := by
  refine noDeadBelow.mk _ _ ?_ ?_ <;> intro n hn <;> simp [List.mem_replicate] at hn

theorem get?_replicate_of_lt {α : Type} (x : α) {m i : Nat} (h : i < m) :
    (List.replicate m x).get? i = some x := by
  rw [List.get?_eq_getElem?]
  rw [List.getElem?_eq_getElem (by simpa using h)]
  simp

theorem set_of_get?_eq {α : Type} :
    ∀ (l : List α) (i : Nat) (a : α), l.get? i = some a → l.set i a = l
  | [], i, a => by simp
  | x :: xs, 0, a => by
    intro h
    simp only [List.get?] at h
    cases h
    rfl
  | x :: xs, i + 1, a => by
    intro h
    simp only [List.get?] at h
    simp only [List.set]
    rw [set_of_get?_eq xs i a h]

/-! ### Insertion: success, round-trip, and invariant preservation -/

theorem insertGo_wf : ∀ {nibs : List Nat} {t t' : Node} {v : String},
    wf t → insertGo t nibs v = some t' → wf t' := by
  intro nibs
  induction nibs with
  | nil =>
    intro t t' v hwf h
    cases t with | mk ch tv =>
    cases hwf with | mk _ _ hlen hch =>
    simp only [insertGo] at h
    cases h
    exact wf.mk _ _ hlen hch
  | cons nib rest ih =>
    intro t t' v hwf h
    cases t with | mk ch tv =>
    cases hwf with | mk _ _ hlen hch =>
    simp only [insertGo] at h
    split at h
    · cases h
    next slot hslot =>
      split at h
      · cases h
      next child hrec =>
        cases h
        have hcwf : wf (slot.getD Node.new) := by
          cases slot with
          | none => exact wf_new
          | some c => exact hch c (List.get?_mem hslot)
        have hchild := ih hcwf hrec
        refine wf.mk _ _ (by simp [hlen]) ?_
        intro m hm
        rcases List.mem_or_eq_of_mem_set hm with hmem | heq
        · exact hch m hmem
        · injection heq with heq
          subst heq
          exact hchild

theorem insertGo_total : ∀ {nibs : List Nat} {t : Node} (v : String),
    wf t → (∀ n ∈ nibs, n < 16) →
    ∃ t', insertGo t nibs v = some t' ∧ getGo t' nibs = some (some v) := by
  intro nibs
  induction nibs with
  | nil =>
    intro t v _ _
    cases t with | mk ch tv =>
    exact ⟨.mk ch (some v), rfl, rfl⟩
  | cons nib rest ih =>
    intro t v hwf hok
    cases t with | mk ch tv =>
    cases hwf with | mk _ _ hlen hch =>
    have hlt : nib < ch.length := by
      rw [hlen]; exact hok nib (by simp)
    obtain ⟨slot, hslot⟩ : ∃ slot, ch.get? nib = some slot :=
      ⟨ch.get ⟨nib, hlt⟩, List.get?_eq_some.mpr ⟨hlt, rfl⟩⟩
    have hcwf : wf (slot.getD Node.new) := by
      cases slot with
      | none => exact wf_new
      | some c => exact hch c (List.get?_mem hslot)
    obtain ⟨child, hrec, hget⟩ := ih v hcwf (fun n hn => hok n (by simp [hn]))
    refine ⟨.mk (ch.set nib (some child)) tv, ?_, ?_⟩
    · simp only [insertGo, hslot, hrec]
    · simp only [getGo]
      rw [List.get?_set_eq_of_lt _ hlt]
      exact hget

theorem isDead_false_of_value {ch : List (Option Node)} {s : String} :
    isDead (.mk ch (some s)) = false := by
  simp [isDead, Node.value, Node.children]

theorem insertGo_notDead : ∀ {nibs : List Nat} {t t' : Node} {v : String},
    insertGo t nibs v = some t' → isDead t' = false := by
  intro nibs
  cases nibs with
  | nil =>
    intro t t' v h
    cases t with | mk ch tv =>
    simp only [insertGo] at h
    cases h
    exact isDead_false_of_value
  | cons nib rest =>
    intro t t' v h
    cases t with | mk ch tv =>
    simp only [insertGo] at h
    split at h
    · cases h
    next slot hslot =>
      split at h
      · cases h
      next child hrec =>
        cases h
        have hlt : nib < ch.length := List.get?_eq_some.mp hslot |>.1
        have hmem : some child ∈ ch.set nib (some child) :=
          List.get?_mem (by rw [List.get?_set_eq_of_lt _ hlt])
        simp only [isDead, Node.value, Node.children, Bool.and_eq_false_iff]
        right
        rw [Bool.eq_false_iff]
        intro hall
        have := List.all_eq_true.mp hall _ hmem
        simp at this

theorem insertGo_noDead : ∀ {nibs : List Nat} {t t' : Node} {v : String},
    wf t → noDeadBelow t → insertGo t nibs v = some t' → noDeadBelow t' := by
  intro nibs
  induction nibs with
  | nil =>
    intro t t' v _ hnd h
    cases t with | mk ch tv =>
    cases hnd with | mk _ _ hdead hch =>
    simp only [insertGo] at h
    cases h
    exact noDeadBelow.mk _ _ hdead hch
  | cons nib rest ih =>
    intro t t' v hwf hnd h
    cases t with | mk ch tv =>
    cases hwf with | mk _ _ hlen hwfch =>
    cases hnd with | mk _ _ hdead hch =>
    simp only [insertGo] at h
    split at h
    · cases h
    next slot hslot =>
      split at h
      · cases h
      next child hrec =>
        cases h
        have hcwf : wf (slot.getD Node.new) := by
          cases slot with
          | none => exact wf_new
          | some c => exact hwfch c (List.get?_mem hslot)
        have hcnd : noDeadBelow (slot.getD Node.new) := by
          cases slot with
          | none => exact noDead_new
          | some c => exact hch c (List.get?_mem hslot)
        have hchild := ih hcwf hcnd hrec
        refine noDeadBelow.mk _ _ ?_ ?_ <;> intro m hm <;>
          rcases List.mem_or_eq_of_mem_set hm with hmem | heq
        · exact hdead m hmem
        · injection heq with heq
          subst heq
          exact insertGo_notDead hrec
        · exact hch m hmem
        · injection heq with heq
          subst heq
          exact hchild

/-! ### Deletion: the returned flag, success, and invariant preservation -/

theorem deleteRec_isDead : ∀ {nibs : List Nat} {t t' : Node} {b : Bool},
    deleteRec t nibs = some (t', b) → b = isDead t' := by
  intro nibs t t' b h
  cases nibs with
  | nil =>
    cases t with | mk ch tv =>
    simp only [deleteRec] at h
    cases h
    rfl
  | cons idx rest =>
    cases t with | mk ch tv =>
    simp only [deleteRec] at h
    split at h
    · cases h
    · cases h
      rfl
    next child hslot =>
      split at h
      · cases h
      next child' pb hrec =>
        cases h
        rfl

theorem deleteRec_wf : ∀ {nibs : List Nat} {t t' : Node} {b : Bool},
    wf t → deleteRec t nibs = some (t', b) → wf t' := by
  intro nibs
  induction nibs with
  | nil =>
    intro t t' b hwf h
    cases t with | mk ch tv =>
    cases hwf with | mk _ _ hlen hch =>
    simp only [deleteRec] at h
    cases h
    exact wf.mk _ _ hlen hch
  | cons idx rest ih =>
    intro t t' b hwf h
    cases t with | mk ch tv =>
    cases hwf with | mk _ _ hlen hch =>
    simp only [deleteRec] at h
    split at h
    · cases h
    · cases h
      exact wf.mk _ _ hlen hch
    next child hslot =>
      split at h
      · cases h
      next child' pb hrec =>
        cases h
        have hchild' : wf child' := ih (hch child (List.get?_mem hslot)) hrec
        cases pb with
        | true =>
          refine wf.mk _ _ (by simp [hlen]) ?_
          intro m hm
          simp only [if_pos] at hm
          rcases List.mem_or_eq_of_mem_set hm with hmem | heq
          · exact hch m hmem
          · simp at heq
        | false =>
          refine wf.mk _ _ (by simp [hlen]) ?_
          intro m hm
          simp only [if_neg] at hm
          rcases List.mem_or_eq_of_mem_set hm with hmem | heq
          · exact hch m hmem
          · injection heq with heq
            subst heq
            exact hchild'

theorem deleteRec_total : ∀ {nibs : List Nat} {t : Node},
    wf t → (∀ n ∈ nibs, n < 16) →
    ∃ t' b, deleteRec t nibs = some (t', b) := by
  intro nibs
  induction nibs with
  | nil =>
    intro t _ _
    cases t with | mk ch tv =>
    exact ⟨_, _, rfl⟩
  | cons idx rest ih =>
    intro t hwf hok
    cases t with | mk ch tv =>
    cases hwf with | mk _ _ hlen hch =>
    have hlt : idx < ch.length := by
      rw [hlen]; exact hok idx (by simp)
    obtain ⟨slot, hslot⟩ : ∃ slot, ch.get? idx = some slot :=
      ⟨ch.get ⟨idx, hlt⟩, List.get?_eq_some.mpr ⟨hlt, rfl⟩⟩
    cases slot with
    | none => exact ⟨_, _, by simp only [deleteRec, hslot]; exact rfl⟩
    | some child =>
      obtain ⟨child', pb, hrec⟩ :=
        ih (hch child (List.get?_mem hslot)) (fun n hn => hok n (by simp [hn]))
      exact ⟨_, _, by simp only [deleteRec, hslot, hrec]; exact rfl⟩

theorem deleteRec_noDead : ∀ {nibs : List Nat} {t t' : Node} {b : Bool},
    wf t → noDeadBelow t → deleteRec t nibs = some (t', b) → noDeadBelow t' := by
  intro nibs
  induction nibs with
  | nil =>
    intro t t' b _ hnd h
    cases t with | mk ch tv =>
    cases hnd with | mk _ _ hdead hch =>
    simp only [deleteRec] at h
    cases h
    exact noDeadBelow.mk _ _ hdead hch
  | cons idx rest ih =>
    intro t t' b hwf hnd h
    cases t with | mk ch tv =>
    cases hwf with | mk _ _ hlen hwfch =>
    cases hnd with | mk _ _ hdead hch =>
    simp only [deleteRec] at h
    split at h
    · cases h
    · cases h
      exact noDeadBelow.mk _ _ hdead hch
    next child hslot =>
      split at h
      · cases h
      next child' pb hrec =>
        cases h
        have hmem := List.get?_mem hslot
        have hchild' : noDeadBelow child' := ih (hwfch child hmem) (hch child hmem) hrec
        have hpb := deleteRec_isDead hrec
        cases pb with
        | true =>
          refine noDeadBelow.mk _ _ ?_ ?_ <;> intro m hm <;>
            simp only [if_pos] at hm <;>
            rcases List.mem_or_eq_of_mem_set hm with hmem' | heq
          · exact hdead m hmem'
          · simp at heq
          · exact hch m hmem'
          · simp at heq
        | false =>
          refine noDeadBelow.mk _ _ ?_ ?_ <;> intro m hm <;>
            simp only [if_neg] at hm <;>
            rcases List.mem_or_eq_of_mem_set hm with hmem' | heq
          · exact hdead m hmem'
          · injection heq with heq
            subst heq
            exact (Bool.eq_false_iff.mpr (fun hc => by rw [hc] at hpb; cases hpb))
          · exact hch m hmem'
          · injection heq with heq
            subst heq
            exact hchild'

/-- Looking up any valid nibble path in a dead well-formed node reports
the key as absent. -/
theorem getGo_dead : ∀ {nibs : List Nat} {t : Node},
    wf t → isDead t = true → (∀ n ∈ nibs, n < 16) →
    getGo t nibs = some none := by
  intro nibs t hwf hdead hok
  cases t with | mk ch tv =>
  cases hwf with | mk _ _ hlen hch =>
  simp only [isDead, Node.value, Node.children, Bool.and_eq_true] at hdead
  cases nibs with
  | nil =>
    simp only [getGo]
    cases tv with
    | none => rfl
    | some s => simp at hdead
  | cons nib rest =>
    have hlt : nib < ch.length := by
      rw [hlen]; exact hok nib (by simp)
    obtain ⟨slot, hslot⟩ : ∃ slot, ch.get? nib = some slot :=
      ⟨ch.get ⟨nib, hlt⟩, List.get?_eq_some.mpr ⟨hlt, rfl⟩⟩
    have hnone : slot = none := by
      have := List.all_eq_true.mp hdead.2 slot (List.get?_mem hslot)
      cases slot with
      | none => rfl
      | some c => simp at this
    subst hnone
    simp only [getGo, hslot]

/-! ### Lookup totality and the two insertion loops -/

theorem getGo_total : ∀ {nibs : List Nat} {t : Node},
    wf t → (∀ n ∈ nibs, n < 16) → ∃ r, getGo t nibs = some r := by
  intro nibs
  induction nibs with
  | nil =>
    intro t _ _
    cases t with | mk ch tv =>
    exact ⟨tv, rfl⟩
  | cons nib rest ih =>
    intro t hwf hok
    cases t with | mk ch tv =>
    cases hwf with | mk _ _ hlen hch =>
    have hlt : nib < ch.length := by
      rw [hlen]; exact hok nib (by simp)
    obtain ⟨slot, hslot⟩ : ∃ slot, ch.get? nib = some slot :=
      ⟨ch.get ⟨nib, hlt⟩, List.get?_eq_some.mpr ⟨hlt, rfl⟩⟩
    cases slot with
    | none => exact ⟨none, by simp only [getGo, hslot]⟩
    | some child =>
      obtain ⟨r, hr⟩ :=
        ih (hch child (List.get?_mem hslot)) (fun n hn => hok n (by simp [hn]))
      exact ⟨r, by simp only [getGo, hslot]; exact hr⟩

/-- The two textually duplicated insertion loops of the source compute
the same function. -/
theorem insertNibblesGo_eq : ∀ (nibs : List Nat) (t : Node) (v : String),
    insertNibblesGo t nibs v = insertGo t nibs v := by
  intro nibs
  induction nibs with
  | nil => intro t v; cases t; rfl
  | cons nib rest ih =>
    intro t v
    cases t with | mk ch tv =>
    simp only [insertNibblesGo, insertGo, ih]

/-! ### Deletion does not disturb other keys -/

theorem deleteRec_get_ne : ∀ {nibs nibs' : List Nat} {t t' : Node} {b : Bool},
    wf t → (∀ n ∈ nibs, n < 16) → (∀ n ∈ nibs', n < 16) → nibs ≠ nibs' →
    deleteRec t nibs = some (t', b) → getGo t' nibs' = getGo t nibs' := by
  intro nibs
  induction nibs with
  | nil =>
    intro nibs' t t' b hwf hok hok' hne h
    cases t with | mk ch tv =>
    simp only [deleteRec] at h
    cases h
    cases nibs' with
    | nil => exact absurd rfl hne
    | cons j rest' => simp only [getGo]
  | cons i rest ih =>
    intro nibs' t t' b hwf hok hok' hne h
    cases t with | mk ch tv =>
    cases hwf with | mk _ _ hlen hch =>
    simp only [deleteRec] at h
    split at h
    · cases h
    · cases h
      rfl
    next child hslot =>
      split at h
      · cases h
      next child' pb hrec =>
        cases h
        have hwfc : wf child := hch child (List.get?_mem hslot)
        have hwfc' : wf child' := deleteRec_wf hwfc hrec
        have hokr : ∀ n ∈ rest, n < 16 := fun n hn => hok n (by simp [hn])
        have hlt : i < ch.length := (List.get?_eq_some.mp hslot).1
        cases nibs' with
        | nil => cases pb <;> rfl
        | cons j rest' =>
          by_cases hij : j = i
          · subst hij
            by_cases hrr : rest = rest'
            · subst hrr
              exact absurd rfl hne
            · have hokr' : ∀ n ∈ rest', n < 16 := fun n hn => hok' n (by simp [hn])
              have hget := ih hwfc hokr hokr' hrr hrec
              cases pb with
              | false =>
                simp only [getGo, if_neg, Bool.false_eq_true, not_false_eq_true]
                rw [List.get?_set_eq_of_lt _ hlt, hslot]
                exact hget
              | true =>
                have hdead : isDead child' = true := (deleteRec_isDead hrec).symm
                simp only [getGo, if_pos]
                rw [List.get?_set_eq_of_lt _ hlt, hslot]
                show (some none : Option (Option String)) = getGo child rest'
                rw [← hget]
                exact (getGo_dead hwfc' hdead hokr').symm
          · have hine : i ≠ j := fun hc => hij hc.symm
            cases pb <;>
              simp only [getGo, if_pos, if_neg, Bool.false_eq_true, not_false_eq_true] <;>
              rw [List.get?_set_ne _ _ hine]

/-! ### Deletion is idempotent; deleting an absent key is a no-op -/

theorem deleteRec_idem : ∀ {nibs : List Nat} {t t' : Node} {b : Bool},
    wf t → deleteRec t nibs = some (t', b) → deleteRec t' nibs = some (t', b) := by
  intro nibs
  induction nibs with
  | nil =>
    intro t t' b _ h
    cases t with | mk ch tv =>
    simp only [deleteRec] at h
    cases h
    rfl
  | cons i rest ih =>
    intro t t' b hwf h
    cases t with | mk ch tv =>
    cases hwf with | mk _ _ hlen hch =>
    simp only [deleteRec] at h
    split at h
    · cases h
    next hslot =>
      cases h
      simp only [deleteRec, hslot]
    next child hslot =>
      split at h
      · cases h
      next child' pb hrec =>
        cases h
        have hwfc : wf child := hch child (List.get?_mem hslot)
        have hlt : i < ch.length := (List.get?_eq_some.mp hslot).1
        have hrec' := ih hwfc hrec
        cases pb with
        | true =>
          simp only [if_pos]
          have hslot' : (ch.set i none).get? i = some none :=
            List.get?_set_eq_of_lt _ hlt
          simp only [deleteRec, hslot']
        | false =>
          simp only [if_neg, Bool.false_eq_true, not_false_eq_true]
          have hslot' : (ch.set i (some child')).get? i = some (some child') :=
            List.get?_set_eq_of_lt _ hlt
          simp only [deleteRec, hslot', hrec', List.set_set, Bool.false_eq_true,
            not_false_eq_true, if_neg]

theorem deleteRec_absent : ∀ {nibs : List Nat} {t : Node},
    wf t → noDeadBelow t → (∀ n ∈ nibs, n < 16) → getGo t nibs = some none →
    deleteRec t nibs = some (t, isDead t) := by
  intro nibs
  induction nibs with
  | nil =>
    intro t _ _ _ hget
    cases t with | mk ch tv =>
    simp only [getGo] at hget
    cases hget
    rfl
  | cons i rest ih =>
    intro t hwf hnd hok hget
    cases t with | mk ch tv =>
    cases hwf with | mk _ _ hlen hwfch =>
    cases hnd with | mk _ _ hdead hch =>
    have hlt : i < ch.length := by
      rw [hlen]; exact hok i (by simp)
    obtain ⟨slot, hslot⟩ : ∃ slot, ch.get? i = some slot :=
      ⟨ch.get ⟨i, hlt⟩, List.get?_eq_some.mpr ⟨hlt, rfl⟩⟩
    cases slot with
    | none =>
      simp only [deleteRec, hslot]
      rfl
    | some child =>
      have hmem := List.get?_mem hslot
      simp only [getGo, hslot] at hget
      have hdel := ih (hwfch child hmem) (hch child hmem)
        (fun n hn => hok n (by simp [hn])) hget
      rw [hdead child hmem] at hdel
      simp only [deleteRec, hslot, hdel, Bool.false_eq_true, not_false_eq_true, if_neg]
      rw [set_of_get?_eq ch i (some child) hslot]
      rfl

/-! ### Inserting a single key into a fresh trie and deleting it again -/

theorem insert_new_delete : ∀ (nibs : List Nat) (v : String), (∀ n ∈ nibs, n < 16) →
    ∃ t₁, insertGo Node.new nibs v = some t₁ ∧
      deleteRec t₁ nibs = some (Node.new, true) := by
  intro nibs
  induction nibs with
  | nil =>
    intro v _
    exact ⟨.mk (List.replicate 16 none) (some v), rfl, rfl⟩
  | cons n rest ih =>
    intro v hok
    have hn : n < 16 := hok n (by simp)
    obtain ⟨c₁, hc, hd⟩ := ih v (fun m hm => hok m (by simp [hm]))
    have hslot : (List.replicate 16 (none : Option Node)).get? n = some none :=
      get?_replicate_of_lt none hn
    have hlt : n < (List.replicate 16 (none : Option Node)).length := by simp [hn]
    refine ⟨.mk ((List.replicate 16 none).set n (some c₁)) none, ?_, ?_⟩
    · simp only [Node.new, insertGo, hslot, Option.getD_none] at hc ⊢
      rw [hc]
    · have hslot' : ((List.replicate 16 (none : Option Node)).set n (some c₁)).get? n
          = some (some c₁) := List.get?_set_eq_of_lt _ hlt
      simp only [deleteRec, hslot', hd, if_pos, List.set_set]
      rw [set_of_get?_eq _ n none hslot]
      rfl

/-! ### Rendering the empty trie -/

theorem render_new : Node.render Node.new = some "(root)\n" := by
  rw [Node.render, Node.new, renderNode]
  have hpc : sortByKey (presentChildren (List.replicate 16 none)) = [] := rfl
  rw [hpc]
  rw [renderChildren]
  decide

/-! ### Invariant preservation along any operation history -/

theorem applyOp_inv {t t' : Node} {op : Op} (hwf : wf t) (hnd : noDeadBelow t)
    (happ : applyOp t op = some t') : wf t' ∧ noDeadBelow t' := by
  cases op with
  | ins k v =>
    simp only [applyOp, Node.insert] at happ
    exact ⟨insertGo_wf hwf happ, insertGo_noDead hwf hnd happ⟩
  | insN nibs v =>
    simp only [applyOp, Node.insertNibbles, insertNibblesGo_eq] at happ
    exact ⟨insertGo_wf hwf happ, insertGo_noDead hwf hnd happ⟩
  | getOp k =>
    simp only [applyOp] at happ
    cases happ
    exact ⟨hwf, hnd⟩
  | del k =>
    simp only [applyOp, Node.delete] at happ
    rw [Option.map_eq_some'] at happ
    obtain ⟨⟨t₂, b⟩, hd, ht⟩ := happ
    cases ht
    exact ⟨deleteRec_wf hwf hd, deleteRec_noDead hwf hnd hd⟩

theorem applyOps_inv : ∀ {ops : List Op} {t t' : Node},
    wf t → noDeadBelow t → applyOps t ops = some t' → wf t' ∧ noDeadBelow t' := by
  intro ops
  induction ops with
  | nil =>
    intro t t' hwf hnd h
    cases h
    exact ⟨hwf, hnd⟩
  | cons op rest ih =>
    intro t t' hwf hnd h
    simp only [applyOps] at h
    split at h
    · cases h
    next t₁ happ =>
      obtain ⟨hwf₁, hnd₁⟩ := applyOp_inv hwf hnd happ
      exact ih hwf₁ hnd₁ h

/-- Helper for claim C8: the key with its non-hex characters removed. -/
def hexOnly (s : String) : String := ⟨s.data.filter (fun c => (toDigit16 c).isSome)⟩

theorem filterMap_filter_isSome {α β : Type} (f : α → Option β) :
    ∀ l : List α, (l.filter (fun a => (f a).isSome)).filterMap f = l.filterMap f := by
  intro l
  induction l with
  | nil => rfl
  | cons a l ih =>
    cases hfa : f a with
    | none => simp [List.filter_cons, List.filterMap_cons, hfa, ih]
    | some b => simp [List.filter_cons, List.filterMap_cons, hfa, ih]

/-! ### The claims -/

/-- Claim C1: for every (well-formed) trie, key string `k` and value `v`,
`insert(k, v)` succeeds and a subsequent `get(k)` returns `v`; the empty
key stores the value on the root. -/
theorem C1_insert_get_roundtrip (t : Node) (k v : String) (hwf : wf t) :
    ∃ t', Node.insert t k v = some t' ∧ Node.get t' k = some (some v) := by
  obtain ⟨t', h1, h2⟩ := insertGo_total v hwf (fun n hn => hexToNibbles_lt hn)
  exact ⟨t', h1, h2⟩

/-- Witness for C1, at the empty key on the fresh trie. -/
theorem C1_witness :
    ∃ t', Node.insert Node.new "" "x" = some t' ∧ Node.get t' "" = some (some "x") :=
  C1_insert_get_roundtrip Node.new "" "x" wf_new

/-- Claim C2: deleting key `k` does not change the lookup result of any
key `k'` with a different nibble decomposition — shared-prefix ancestor
nodes that still lead to another stored key are kept. -/
theorem C2_delete_preserves_other_keys (t : Node) (k k' : String) (hwf : wf t)
    (hne : hexToNibbles k ≠ hexToNibbles k') :
    ∀ t' b, Node.delete t k = some (t', b) → Node.get t' k' = Node.get t k' := by
  intro t' b h
  exact deleteRec_get_ne hwf (fun n hn => hexToNibbles_lt hn)
    (fun n hn => hexToNibbles_lt hn) hne h

/-- The trie holding key `"a1f"`. -/
def trieA : Node := (Node.insert Node.new "a1f" "leaf-A1F").getD Node.new

/-- The trie holding keys `"a1f"` and `"a1e"`. -/
def trieAB : Node := (Node.insert trieA "a1e" "leaf-A1E").getD Node.new

/-- The state after deleting `"a1f"` from `trieAB`, with the returned flag. -/
def trieAfter : Node × Bool := (Node.delete trieAB "a1f").getD (Node.new, true)

/-- Witness for C2: the spec's concrete scenario — insert `"a1f"` and
`"a1e"`, delete `"a1f"`, and `"a1e"` is still retrievable. -/
theorem C2_witness :
    Node.get trieAfter.1 "a1e" = Node.get trieAB "a1e" ∧
    Node.get trieAB "a1e" = some (some "leaf-A1E") := by
  have hA : Node.insert Node.new "a1f" "leaf-A1F" = some trieA := rfl
  have hB : Node.insert trieA "a1e" "leaf-A1E" = some trieAB := rfl
  have hwf : wf trieAB := insertGo_wf (insertGo_wf wf_new hA) hB
  exact ⟨C2_delete_preserves_other_keys trieAB "a1f" "a1e" hwf (by decide)
    trieAfter.1 trieAfter.2 rfl, rfl⟩

/-- Claim C3: inserting a single key into a fresh trie and then deleting
it leaves exactly the permanently retained root: no value, all sixteen
child slots empty, and the rendering is the bare root line. -/
theorem C3_single_key_prunes_to_root (k v : String) :
    ∃ t₁ t₂, Node.insert Node.new k v = some t₁ ∧
      Node.delete t₁ k = some (t₂, true) ∧ t₂ = Node.new ∧
      t₂.value = none ∧ t₂.children = List.replicate 16 none ∧
      Node.render t₂ = some "(root)\n" := by
  obtain ⟨t₁, h1, h2⟩ :=
    insert_new_delete (hexToNibbles k) v (fun n hn => hexToNibbles_lt hn)
  exact ⟨t₁, Node.new, h1, h2, rfl, rfl, rfl, render_new⟩

/-- Claim C4: after any sequence of public operations starting from a
fresh trie, no reachable node other than the root is dead (valueless
with all sixteen child slots empty). -/
theorem C4_no_dead_nodes (ops : List Op) (t : Node)
    (h : applyOps Node.new ops = some t) : noDeadBelow t :=
  (applyOps_inv wf_new noDead_new h).2

/-- Witness for C4, for the history insert `"a1f"` then delete `"a1f"`. -/
theorem C4_witness : noDeadBelow Node.new :=
  C4_no_dead_nodes [Op.ins "a1f" "v", Op.del "a1f"] Node.new rfl

/-- Claim C5 counterexample: `insert_nibbles` is not total on arbitrary
integer sequences — the nibble 16 indexes `children[16]` out of bounds,
a panic (modelled by `none`). -/
theorem C5_counterexample : Node.insertNibbles Node.new [16] "v" = none := rfl

/-- Claim C5 (amended): `insert`, `get` and `delete` succeed on every key
string, and `insert_nibbles` succeeds on every nibble sequence whose
elements are all below 16. -/
theorem C5_total_on_valid_inputs (t : Node) (hwf : wf t) :
    (∀ k v, ∃ t', Node.insert t k v = some t') ∧
    (∀ k, ∃ r, Node.get t k = some r) ∧
    (∀ k, ∃ p, Node.delete t k = some p) ∧
    (∀ nibs v, (∀ n ∈ nibs, n < 16) → ∃ t', Node.insertNibbles t nibs v = some t') := by
  refine ⟨?_, ?_, ?_, ?_⟩
  · intro k v
    obtain ⟨t', h, _⟩ := insertGo_total v hwf (fun n hn => hexToNibbles_lt hn)
    exact ⟨t', h⟩
  · intro k
    exact getGo_total hwf (fun n hn => hexToNibbles_lt hn)
  · intro k
    obtain ⟨t', b, h⟩ := deleteRec_total hwf (fun n hn => hexToNibbles_lt hn)
    exact ⟨(t', b), h⟩
  · intro nibs v hok
    obtain ⟨t', h, _⟩ := insertGo_total v hwf hok
    refine ⟨t', ?_⟩
    rw [Node.insertNibbles, insertNibblesGo_eq]
    exact h

/-- Witness for C5 (amended), at an in-range nibble sequence. -/
theorem C5_witness : ∃ t', Node.insertNibbles Node.new [15, 0] "v" = some t' :=
  (C5_total_on_valid_inputs Node.new wf_new).2.2.2 [15, 0] "v" (by decide)

/-- Claim C6 counterexample: `delete` does not have return type `()` —
it returns a caller-visible boolean that varies with the input (`true`
when deleting from an empty trie, `false` when the root keeps a child). -/
theorem C6_counterexample :
    (Node.delete Node.new "a").map Prod.snd = some true ∧
    ((Node.insert Node.new "ab" "v").bind fun t =>
      (Node.delete t "a").map Prod.snd) = some false :=
  ⟨rfl, rfl⟩

/-- Claim C6 (amended): `delete(key) -> bool` succeeds on every key
string and returns the flag saying whether the node it was invoked on
ended up dead. -/
theorem C6_delete_returns_dead_flag (t : Node) (k : String) (hwf : wf t) :
    ∃ t' b, Node.delete t k = some (t', b) ∧ b = isDead t' := by
  obtain ⟨t', b, h⟩ := deleteRec_total hwf (fun n hn => hexToNibbles_lt hn)
  exact ⟨t', b, h, deleteRec_isDead h⟩

/-- Witness for C6 (amended). -/
theorem C6_witness :
    ∃ t' b, Node.delete Node.new "f" = some (t', b) ∧ b = isDead t' :=
  C6_delete_returns_dead_flag Node.new "f" wf_new

/-- Claim C7: deleting a key twice yields exactly the trie (and flag) of
deleting it once, and deleting a key that is absent (on a trie with no
dead descendants) leaves the trie completely unchanged. -/
theorem C7_delete_idempotent (t : Node) (k : String) (hwf : wf t) :
    (∀ t' b, Node.delete t k = some (t', b) → Node.delete t' k = some (t', b)) ∧
    (noDeadBelow t → Node.get t k = some none →
      Node.delete t k = some (t, isDead t)) := by
  constructor
  · intro t' b h
    exact deleteRec_idem hwf h
  · intro hnd hget
    exact deleteRec_absent hwf hnd (fun n hn => hexToNibbles_lt hn) hget

/-- Witness for C7: deleting `"a"` from the empty trie is a no-op, so a
second delete returns the same result. -/
theorem C7_witness : Node.delete Node.new "a" = some (Node.new, true) :=
  (C7_delete_idempotent Node.new "a" wf_new).1 Node.new true rfl

/-- Claim C8: the key codec keeps exactly the valid hexadecimal
characters (case-insensitively) in input order, each mapped to its
nibble value below 16, and every operation treats a key like the key
with its invalid characters removed; in particular `"a1g"` behaves as
`"a1"`. -/
theorem C8_codec_drops_invalid (t : Node) (s v : String) :
    (∀ n ∈ hexToNibbles s, n < 16) ∧
    hexToNibbles (hexOnly s) = hexToNibbles s ∧
    Node.insert t (hexOnly s) v = Node.insert t s v ∧
    Node.get t (hexOnly s) = Node.get t s ∧
    Node.delete t (hexOnly s) = Node.delete t s ∧
    hexToNibbles "a1g" = hexToNibbles "a1" ∧
    toDigit16 'A' = toDigit16 'a' ∧ toDigit16 'B' = toDigit16 'b' ∧
    toDigit16 'C' = toDigit16 'c' ∧ toDigit16 'D' = toDigit16 'd' ∧
    toDigit16 'E' = toDigit16 'e' ∧ toDigit16 'F' = toDigit16 'f' := by
  have hfil : hexToNibbles (hexOnly s) = hexToNibbles s := by
    simp only [hexToNibbles, hexOnly]
    exact filterMap_filter_isSome toDigit16 s.data
  refine ⟨fun n hn => hexToNibbles_lt hn, hfil, ?_, ?_, ?_, by decide,
    by decide, by decide, by decide, by decide, by decide, by decide⟩
  · rw [Node.insert, Node.insert, hfil]
  · rw [Node.get, Node.get, hfil]
  · rw [Node.delete, Node.delete, hfil]

/-- Claim C9: `insert_nibbles` applied to the codec's decomposition of a
key produces exactly the same trie as `insert` on that key. -/
theorem C9_insert_nibbles_refines_insert (t : Node) (k v : String) :
    Node.insertNibbles t (hexToNibbles k) v = Node.insert t k v := by
  rw [Node.insertNibbles, Node.insert, insertNibblesGo_eq]

/-- Claim C10: the boolean returned by `delete` is true exactly when the
node it was invoked on ends up with no stored value and all sixteen of
its child slots empty. -/
theorem C10_delete_flag_iff_dead (t : Node) (k : String) (hwf : wf t) :
    ∀ t' b, Node.delete t k = some (t', b) →
      t'.children.length = 16 ∧
      (b = true ↔ (t'.value = none ∧ ∀ c ∈ t'.children, c = none)) := by
  intro t' b h
  have hwf' : wf t' := deleteRec_wf hwf h
  have hb := deleteRec_isDead h
  constructor
  · cases t' with | mk ch v' =>
    cases hwf' with | mk _ _ hlen _ => exact hlen
  · rw [hb]
    simp [isDead, Bool.and_eq_true, Option.isNone_iff_eq_none, List.all_eq_true]

/-- Witness for C10: deleting the empty key from the fresh trie returns
`true`, and the root is indeed valueless with sixteen empty slots. -/
theorem C10_witness :
    Node.new.children.length = 16 ∧
    (true = true ↔ (Node.new.value = none ∧ ∀ c ∈ Node.new.children, c = none)) :=
  C10_delete_flag_iff_dead Node.new "" wf_new Node.new true rfl

end RadixTrie
